import Mathlib

/-!
Verification of the brain-dump processor
(`workspace/skills/life-os/scripts/brain_dump.py`).

The script is embedded shallowly over `List Char`: Python strings become
character lists, `str.strip`/`str.lower`/`str.title` become the explicit
functions below, the `re` patterns used by the script are specialised to
executable matchers with the same backtracking behaviour, and the two
impure inputs (the clock and the filesystem) become explicit parameters
and an `Option` result.  Whitespace is modelled as the six ASCII
whitespace characters, which is what Python's `\s` and `str.strip` do on
ASCII text.
-/

namespace BrainDump

/-- Character list of a string literal; Python strings are modelled as
`List Char`. -/
def str (s : String) : List Char := s.toList

/-- ASCII whitespace, the ASCII fragment of Python's `str.strip` / `\s`
character class. -/
def isWS (c : Char) : Bool :=
  c == ' ' || c == '\t' || c == '\n' || c == '\r' || c == '\x0b' || c == '\x0c'

/-- Remove trailing whitespace (the right half of Python's `str.strip`). -/
def dropTrailWS : List Char → List Char
  | [] => []
  | c :: rest =>
    match dropTrailWS rest with
    | [] => if isWS c then [] else [c]
    | r :: rs => c :: r :: rs

/-- Python's `str.strip`: remove leading and trailing whitespace. -/
def pyStrip (l : List Char) : List Char := dropTrailWS (l.dropWhile isWS)

/-- Python's `str.lower` on ASCII text. -/
def lowerStr (l : List Char) : List Char := l.map Char.toLower

/-- Does `kw` occur at the head of the list? -/
def leadMatch : List Char → List Char → Bool
  | [], _ => true
  | _ :: _, [] => false
  | a :: as, b :: bs => a == b && leadMatch as bs

/-- Python's `kw in s` substring test. -/
def substrIn (needle : List Char) : List Char → Bool
  | [] => leadMatch needle []
  | c :: rest => leadMatch needle (c :: rest) || substrIn needle rest

/-- Python's `any(w in s for w in kws)` (brain_dump.py lines 34/40/46/52). -/
def containsAny (kws : List (List Char)) (s : List Char) : Bool :=
  kws.any (fun k => substrIn k s)

/-- A separator character of the fragment splitter: the regex class
`[\n•\-]` of brain_dump.py line 23. -/
def isSep (c : Char) : Bool := c == '\n' || c == '•' || c == '-'

/-- `re.split(r'[\n•\-]+', text)` of brain_dump.py line 23: split on
maximal runs of separator characters, keeping the (possibly empty)
pieces between them. -/
def splitRuns : List Char → List (List Char)
  | [] => [[]]
  | c :: rest =>
    if isSep c then
      match rest with
      | [] => [] :: splitRuns rest
      | c2 :: _ => if isSep c2 then splitRuns rest else [] :: splitRuns rest
    else
      match splitRuns rest with
      | [] => [[c]]
      | p :: ps => (c :: p) :: ps

/-- The five categories, in the order of `CATEGORIES` (brain_dump.py
line 15), which is also the insertion order of the result dict. -/
inductive Cat where
  | ideas
  | questions
  | projects
  | resources
  | random
deriving DecidableEq

/-- The categorized-thoughts dict: one list of fragments per category. -/
structure Categorized where
  ideas : List (List Char)
  questions : List (List Char)
  projects : List (List Char)
  resources : List (List Char)
  random : List (List Char)

/-- Look up one category's list. -/
def Categorized.get (m : Categorized) : Cat → List (List Char)
  | .ideas => m.ideas
  | .questions => m.questions
  | .projects => m.projects
  | .resources => m.resources
  | .random => m.random

/-- The initial dict `{cat: [] for cat in CATEGORIES}` (line 20). -/
def emptyCat : Categorized := ⟨[], [], [], [], []⟩

/-- Keyword set of the projects rule (line 34). -/
def projectKws : List (List Char) :=
  [str "build", str "create", str "app", str "website", str "launch", str "make"]

/-- Keyword set of the questions rule (line 40). -/
def questionKws : List (List Char) :=
  [str "how", str "why", str "what", str "when", str "should"]

/-- Keyword set of the ideas rule (line 46). -/
def ideaKws : List (List Char) :=
  [str "idea", str "thought", str "maybe", str "perhaps", str "consider"]

/-- Keyword set of the resources rule (line 52). -/
def resourceKws : List (List Char) :=
  [str "link", str "book", str "tool", str "site", str "url", str "read"]

/-- Append `t` unless already present: the guarded
`if not any(c in categorized[k] for c in [thought]): append` idiom of
lines 35-36, 41-42, 47-48, 53-54. -/
def addUnique (l : List (List Char)) (t : List Char) : List (List Char) :=
  if t ∈ l then l else l ++ [t]

/-- One iteration of the loop body of `categorize_thoughts`
(brain_dump.py lines 25-58): strip the piece, skip it when empty, then
walk the ordered rule chain; note that the `random` fallback at line 58
appends without the membership guard the other four branches have. -/
def classifyStep (m : Categorized) (th : List Char) : Categorized :=
  if pyStrip th = [] then m
  else if containsAny projectKws (lowerStr (pyStrip th)) then
    { m with projects := addUnique m.projects (pyStrip th) }
  else if ('?' ∈ pyStrip th) ∨ containsAny questionKws (lowerStr (pyStrip th)) then
    { m with questions := addUnique m.questions (pyStrip th) }
  else if containsAny ideaKws (lowerStr (pyStrip th)) then
    { m with ideas := addUnique m.ideas (pyStrip th) }
  else if containsAny resourceKws (lowerStr (pyStrip th)) then
    { m with resources := addUnique m.resources (pyStrip th) }
  else
    { m with random := m.random ++ [pyStrip th] }

/-- `categorize_thoughts` (brain_dump.py lines 18-60). -/
def categorize_thoughts (text : List Char) : Categorized :=
  (splitRuns text).foldl classifyStep emptyCat

/-- The category the rule chain assigns to a (stripped, non-empty)
fragment; the first matching rule wins. -/
def classifyCat (t : List Char) : Cat :=
  if containsAny projectKws (lowerStr t) then .projects
  else if ('?' ∈ t) ∨ containsAny questionKws (lowerStr t) then .questions
  else if containsAny ideaKws (lowerStr t) then .ideas
  else if containsAny resourceKws (lowerStr t) then .resources
  else .random

/-- The non-empty trimmed fragments of the input text. -/
def frags (text : List Char) : List (List Char) :=
  ((splitRuns text).map pyStrip).filter (fun t => !t.isEmpty)

/-!
## Action-item extraction

`extract_action_items` (brain_dump.py lines 63-75) runs two regexes with
`re.findall(..., re.IGNORECASE)`:

  `(?:need to|should|must|have to|todo|task)[,:]?\s*(.+?)(?:[.\n]|$)`
  `(?:action|next step)[,:]?\s*(.+?)(?:[.\n]|$)`

Both patterns share one shape, so the matcher below is specialised to
it: an ordered keyword alternation (no keyword is a prefix of another),
a greedy optional `[,:]`, a greedy `\s*`, a non-greedy capture `(.+?)`
whose `.` excludes newlines, and a terminator `[.\n]|$` where `$` only
fires at the end of the remaining text.  Backtracking order follows the
Python engine: keywords in pattern order, the optional separator
consuming-first, `\s*` longest-first, and the capture shortest-first.
-/

/-- Alternatives of the first action pattern, in pattern order. -/
def patternA : List (List Char) :=
  [str "need to", str "should", str "must", str "have to", str "todo", str "task"]

/-- Alternatives of the second action pattern, in pattern order. -/
def patternB : List (List Char) := [str "action", str "next step"]

/-- The non-greedy capture plus terminator `(.+?)(?:[.\n]|$)` after its
first character has been accepted: extend the capture until the first
`.` or newline (consumed) or the end of text, and return the capture
with the rest of the text. -/
def capLoop (acc : List Char) : List Char → List Char × List Char
  | [] => (acc.reverse, [])
  | c :: rest =>
    if c == '.' || c == '\n' then (acc.reverse, rest) else capLoop (c :: acc) rest

/-- `(.+?)(?:[.\n]|$)`: the capture needs at least one character and its
`.` does not match a newline. -/
def tryCapture : List Char → Option (List Char × List Char)
  | [] => none
  | c :: rest => if c == '\n' then none else some (capLoop [c] rest)

/-- Greedy `\s*` with backtracking: try consuming `j` whitespace
characters, longest first, before the capture. -/
def wsBacktrack : Nat → List Char → Option (List Char × List Char)
  | 0, r => tryCapture r
  | j + 1, r => (tryCapture (r.drop (j + 1))).orElse (fun _ => wsBacktrack j r)

/-- `\s*(.+?)(?:[.\n]|$)` on the remaining text. -/
def tryWS (r : List Char) : Option (List Char × List Char) :=
  wsBacktrack (r.takeWhile isWS).length r

/-- `[,:]?\s*(.+?)(?:[.\n]|$)`: the optional separator is greedy, so a
leading `,` or `:` is consumed first and given back on failure. -/
def trySep : List Char → Option (List Char × List Char)
  | [] => tryWS []
  | c :: rest =>
    if c == ',' || c == ':' then (tryWS rest).orElse (fun _ => tryWS (c :: rest))
    else tryWS (c :: rest)

/-- Case-insensitive literal keyword match at the head of the text. -/
def kwMatch (kw s : List Char) : Option (List Char) :=
  if lowerStr (s.take kw.length) = kw then some (s.drop kw.length) else none

/-- The whole pattern at one position: try each alternative in order and
run the tail of the pattern after it, falling through to the next
alternative on failure. -/
def tryAlt : List (List Char) → List Char → Option (List Char × List Char)
  | [], _ => none
  | kw :: kws, s =>
    match kwMatch kw s with
    | some r =>
      match trySep r with
      | some res => some res
      | none => tryAlt kws s
    | none => tryAlt kws s

/-- `re.findall` scan: try the pattern at each position left to right,
and resume after the end of each (non-empty) match.  Every match
consumes at least one character, so `length + 1` units of fuel suffice
(`findAllF_fuel_irrel` below certifies the fuel is irrelevant). -/
def findAllF : Nat → List (List Char) → List Char → List (List Char)
  | 0, _, _ => []
  | fuel + 1, kws, s =>
    match s with
    | [] => []
    | c :: rest =>
      match tryAlt kws (c :: rest) with
      | some (cap, after) => cap :: findAllF fuel kws after
      | none => findAllF fuel kws rest

/-- `re.findall(pattern, text, re.IGNORECASE)` for the shared pattern
shape, returning the group-1 captures. -/
def findAll (kws : List (List Char)) (s : List Char) : List (List Char) :=
  findAllF (s.length + 1) kws s

/-- `[m.strip() for m in matches if len(m.strip()) > 3]` (line 73). -/
def processMatches (ms : List (List Char)) : List (List Char) :=
  (ms.filter (fun m => decide (3 < (pyStrip m).length))).map pyStrip

/-- `extract_action_items` (brain_dump.py lines 63-75): pattern A's
matches, then pattern B's. -/
def extract_action_items (text : List Char) : List (List Char) :=
  processMatches (findAll patternA text) ++ processMatches (findAll patternB text)

example :
    extract_action_items (str "I need to call Bob. I should email Alice.")
      = [str "call Bob", str "email Alice"] := by decide
example : extract_action_items (str "todo .abc") = [str ".abc"] := by decide
example :
    extract_action_items (str "need to ship it. next step: ship it.")
      = [str "ship it", str "ship it"] := by decide
example : extract_action_items (str "todo: x") = [] := by decide
example : extract_action_items (str "we must hurry\nno task") = [str "hurry"] := by decide

/-!
## Report rendering

`generate_dump_entry` (brain_dump.py lines 78-118) builds a list of
lines and joins it with `"\n"`.  Its one impure input, `datetime.now()`
captured once at line 80, is modelled by the parameter `ts`, standing
for `today.strftime('%Y-%m-%d %H:%M')`; both timestamp slots of the
report are rendered from it.
-/

/-- The code-fence line of the raw-thoughts block (lines 87 and 89). -/
def fence : List Char := str "```"

/-- Python's `str.title` on ASCII text: uppercase every letter that
follows a non-letter, lowercase the rest. -/
def pyTitleAux : Bool → List Char → List Char
  | _, [] => []
  | prev, c :: rest => (if prev then c.toLower else c.toUpper) :: pyTitleAux c.isAlpha rest

/-- Python's `str.title` on ASCII text. -/
def pyTitle (s : List Char) : List Char := pyTitleAux false s

/-- `categorized.items()`: the dict was built by inserting the keys in
`CATEGORIES` order (line 20), so iteration yields them in that order. -/
def Categorized.items (m : Categorized) : List (List Char × List (List Char)) :=
  [(str "ideas", m.ideas), (str "questions", m.questions), (str "projects", m.projects),
    (str "resources", m.resources), (str "random", m.random)]

/-- The lines one category contributes (lines 96-101): nothing when its
list is empty, else a title-cased `###` heading, one bullet per item,
and a blank line. -/
def catBlock (p : List Char × List (List Char)) : List (List Char) :=
  if p.2 = [] then []
  else (str "### " ++ pyTitle p.1) :: (p.2.map (fun i => str "- " ++ i) ++ [[]])

/-- The fixed lines up to the category section (lines 82-94). -/
def headerLines (ts text : List Char) : List (List Char) :=
  [str "# Brain Dump: " ++ ts, [], str "## 📝 Raw Thoughts", [], fence, text, fence, [],
    str "## 🏷️ Categorized", []]

/-- The action-item section (lines 103-110): present only when the
action list is non-empty. -/
def actionLines (actions : List (List Char)) : List (List Char) :=
  if actions = [] then []
  else str "## ⚡ Potential Action Items" :: [] ::
    (actions.map (fun a => str "- [ ] " ++ a) ++ [[]])

/-- The closing rule and `Processed` line (lines 112-116). -/
def footerLines (ts : List Char) : List (List Char) :=
  [str "---", [], str "*Processed: " ++ ts ++ str "*"]

/-- The full `lines` list of `generate_dump_entry` just before the
`"\n".join` at line 118. -/
def dumpLines (ts text : List Char) (m : Categorized) (actions : List (List Char)) :
    List (List Char) :=
  headerLines ts text ++ (m.items.map catBlock).flatten ++ actionLines actions ++ footerLines ts

/-- `"\n".join(lines)` (line 118). -/
def joinNl : List (List Char) → List Char
  | [] => []
  | [l] => l
  | l :: l2 :: ls => l ++ '\n' :: joinNl (l2 :: ls)

/-- `generate_dump_entry` (brain_dump.py lines 78-118), with the single
captured timestamp as explicit parameter. -/
def generate_dump_entry (ts text : List Char) (m : Categorized)
    (actions : List (List Char)) : List Char :=
  joinNl (dumpLines ts text m actions)

/-- Split a text into its lines at each newline character (the inverse
reading of `joinNl`, used to state the round-trip claims). -/
def splitNl : List Char → List (List Char)
  | [] => [[]]
  | c :: rest =>
    if c == '\n' then [] :: splitNl rest
    else
      match splitNl rest with
      | [] => [[c]]
      | p :: ps => (c :: p) :: ps

/-- The text strictly between the first fence line and the next fence
line of a rendered report. -/
def rawBlock (out : List Char) : List Char :=
  joinNl ((((splitNl out).dropWhile (fun l => !(l == fence))).drop 1).takeWhile
    (fun l => !(l == fence)))

/-- The timestamp as printed in the title line of a report. -/
def titleTs (out : List Char) : List Char :=
  ((splitNl out).headD []).drop (str "# Brain Dump: ").length

/-- The timestamp as printed in the closing `Processed` line. -/
def footerTs (out : List Char) : List Char :=
  (((splitNl out).getLastD []).drop (str "*Processed: ").length).dropLast

/-- Model of `main` (brain_dump.py lines 121-167) after the input text
has been read: the two clock reads become the parameters `ts` (line 80,
`%Y-%m-%d %H:%M`) and `tsFile` (line 155, `%Y-%m-%d-%H%M`), and the
observable filesystem effect becomes the result: `none` when the
stripped input is empty and `main` returns at line 141 before any
processing, otherwise the written file's name and contents. -/
def mainModel (ts tsFile text : List Char) : Option (List Char × List Char) :=
  if pyStrip text = [] then none
  else some (tsFile ++ str ".md",
    generate_dump_entry ts text (categorize_thoughts text) (extract_action_items text))

example :
    splitNl (generate_dump_entry (str "T") (str "a\nb") emptyCat [])
      = [str "# Brain Dump: T", [], str "## 📝 Raw Thoughts", [], fence, str "a", str "b",
          fence, [], str "## 🏷️ Categorized", [], str "---", [], str "*Processed: T*"] := by
  decide
example :
    rawBlock (generate_dump_entry (str "T") (str "a\nb") emptyCat []) = str "a\nb" := by decide
example : titleTs (generate_dump_entry (str "T") (str "a\nb") emptyCat []) = str "T" := by decide
example : footerTs (generate_dump_entry (str "T") (str "a\nb") emptyCat []) = str "T" := by decide
example : mainModel (str "T") (str "F") (str " \n\t ") = none := by decide

example : splitRuns (str "a-b") = [str "a", str "b"] := by decide
example : splitRuns (str "a--•\nb") = [str "a", str "b"] := by decide
example : splitRuns (str "-a-") = [str "", str "a", str ""] := by decide
example : pyStrip (str "  hi \n") = str "hi" := by decide
example : classifyCat (str "should I build an app?") = Cat.projects := by decide
example : (categorize_thoughts (str "x\nx")).random = [str "x", str "x"] := by decide

/-!
## Categorization lemmas (claims C1, C2, C3)
-/

theorem mem_addUnique {l : List (List Char)} {t f : List Char} :
    f ∈ addUnique l t ↔ f ∈ l ∨ f = t := by
  unfold addUnique
  split_ifs with h
  · constructor
    · exact Or.inl
    · rintro (hf | rfl)
      · exact hf
      · exact h
  · simp [List.mem_append]

theorem mem_get_classifyStep (m : Categorized) (th f : List Char) (c : Cat) :
    f ∈ (classifyStep m th).get c ↔
      f ∈ m.get c ∨ (pyStrip th ≠ [] ∧ f = pyStrip th ∧ classifyCat (pyStrip th) = c) := by
  unfold classifyStep classifyCat
  split_ifs with h0 h1 h2 h3 h4 <;> cases c <;>
    simp [Categorized.get, mem_addUnique, h0, List.mem_append]

theorem mem_get_foldl (ths : List (List Char)) (init : Categorized) (f : List Char) (c : Cat) :
    f ∈ (ths.foldl classifyStep init).get c ↔
      f ∈ init.get c ∨
        ∃ th ∈ ths, pyStrip th ≠ [] ∧ f = pyStrip th ∧ classifyCat (pyStrip th) = c := by
  induction ths generalizing init with
  | nil => simp
  | cons a as ih =>
    rw [List.foldl_cons, ih, mem_get_classifyStep]
    constructor
    · rintro ((h | h) | ⟨th, hth, hp⟩)
      · exact Or.inl h
      · exact Or.inr ⟨a, List.mem_cons_self a as, h⟩
      · exact Or.inr ⟨th, List.mem_cons_of_mem _ hth, hp⟩
    · rintro (h | ⟨th, hth, hp⟩)
      · exact Or.inl (Or.inl h)
      · rcases List.mem_cons.1 hth with rfl | hth2
        · exact Or.inl (Or.inr hp)
        · exact Or.inr ⟨th, hth2, hp⟩

theorem mem_categorize (text f : List Char) (c : Cat) :
    f ∈ (categorize_thoughts text).get c ↔
      ∃ th ∈ splitRuns text, pyStrip th ≠ [] ∧ f = pyStrip th ∧ classifyCat (pyStrip th) = c := by
  unfold categorize_thoughts
  rw [mem_get_foldl]
  have hempty : f ∈ emptyCat.get c ↔ False := by
    cases c <;> simp [emptyCat, Categorized.get]
  rw [hempty, false_or]

theorem mem_frags (text f : List Char) :
    f ∈ frags text ↔ (∃ th ∈ splitRuns text, pyStrip th = f) ∧ f ≠ [] := by
  simp [frags, List.mem_filter, List.mem_map]

/-- Claim C1: for every input text, every non-empty trimmed fragment
produced by the splitter appears in exactly one category's list of the
mapping returned by `categorize_thoughts`: the five lists partition the
fragments and the `random` fallback drops none. -/
theorem categorize_thoughts_partitions (text f : List Char) (h : f ∈ frags text) :
    ∃! c : Cat, f ∈ (categorize_thoughts text).get c := by
  rw [mem_frags] at h
  obtain ⟨⟨th, hth, rfl⟩, hne⟩ := h
  refine ⟨classifyCat (pyStrip th), ?_, ?_⟩
  · show pyStrip th ∈ (categorize_thoughts text).get (classifyCat (pyStrip th))
    rw [mem_categorize]
    exact ⟨th, hth, hne, rfl, rfl⟩
  · intro c hc
    have hc2 : pyStrip th ∈ (categorize_thoughts text).get c := hc
    rw [mem_categorize] at hc2
    obtain ⟨th2, _, _, heq, hcl⟩ := hc2
    rw [← hcl, heq]

/-- Witness for C1 at a concrete input. -/
theorem categorize_thoughts_partitions_witness :
    ∃! c : Cat, str "hello" ∈ (categorize_thoughts (str "hello")).get c :=
  categorize_thoughts_partitions (str "hello") (str "hello") (by decide)

/-- Claim C2: a fragment whose lowercase form contains a project keyword
is assigned to `projects` and to no other category, regardless of any
question or idea keywords or a `?` it also contains. -/
theorem project_keywords_win (text f : List Char) (hf : f ∈ frags text)
    (hkw : containsAny projectKws (lowerStr f) = true) :
    f ∈ (categorize_thoughts text).projects ∧
      ∀ c : Cat, c ≠ Cat.projects → f ∉ (categorize_thoughts text).get c := by
  have hcl : classifyCat f = Cat.projects := by
    unfold classifyCat
    rw [if_pos hkw]
  rw [mem_frags] at hf
  obtain ⟨⟨th, hth, rfl⟩, hne⟩ := hf
  constructor
  · have : pyStrip th ∈ (categorize_thoughts text).get Cat.projects := by
      rw [mem_categorize]
      exact ⟨th, hth, hne, rfl, hcl⟩
    exact this
  · intro c hc hmem
    rw [mem_categorize] at hmem
    obtain ⟨th2, _, _, heq, hcl2⟩ := hmem
    rw [heq] at hcl
    rw [hcl] at hcl2
    exact hc hcl2.symm

/-- Witness for C2: "should I build an app?" contains both a project
keyword and question indicators, and lands in `projects` only. -/
theorem project_keywords_win_witness :
    str "should I build an app?" ∈
        (categorize_thoughts (str "should I build an app?")).projects ∧
      ∀ c : Cat, c ≠ Cat.projects →
        str "should I build an app?" ∉
          (categorize_thoughts (str "should I build an app?")).get c :=
  project_keywords_win (str "should I build an app?") (str "should I build an app?")
    (by decide) (by decide)

/-- Claim C3 counterexample: the `random` fallback at brain_dump.py line
58 appends without the membership guard, so the input `"x\nx"` puts the
same trimmed fragment into the `random` list twice — the claimed
idempotent insertion fails for the `random` category. -/
theorem random_duplicates_cex :
    (categorize_thoughts (str "x\nx")).get Cat.random = [str "x", str "x"] ∧
      ¬ ((categorize_thoughts (str "x\nx")).get Cat.random).Nodup := by
  decide

theorem nodup_append_single {α : Type} {l : List α} {a : α} (h : l.Nodup) (ha : a ∉ l) :
    (l ++ [a]).Nodup := by
  induction l with
  | nil => simp
  | cons b bs ih =>
    rcases List.nodup_cons.1 h with ⟨hb, hbs⟩
    refine List.nodup_cons.2 ⟨?_, ih hbs (fun hx => ha (List.mem_cons_of_mem _ hx))⟩
    intro hmem
    rcases List.mem_append.1 hmem with h1 | h2
    · exact hb h1
    · rw [List.mem_singleton.1 h2] at ha
      exact ha (List.mem_cons_self _ _)

theorem nodup_addUnique {l : List (List Char)} (h : l.Nodup) (t : List Char) :
    (addUnique l t).Nodup := by
  unfold addUnique
  split_ifs with ht
  · exact h
  · exact nodup_append_single h ht

theorem classifyStep_nodup {m : Categorized} (th : List Char)
    (h : m.ideas.Nodup ∧ m.questions.Nodup ∧ m.projects.Nodup ∧ m.resources.Nodup) :
    (classifyStep m th).ideas.Nodup ∧ (classifyStep m th).questions.Nodup ∧
      (classifyStep m th).projects.Nodup ∧ (classifyStep m th).resources.Nodup := by
  obtain ⟨h1, h2, h3, h4⟩ := h
  unfold classifyStep
  split_ifs
  · exact ⟨h1, h2, h3, h4⟩
  · exact ⟨h1, h2, nodup_addUnique h3 _, h4⟩
  · exact ⟨h1, nodup_addUnique h2 _, h3, h4⟩
  · exact ⟨nodup_addUnique h1 _, h2, h3, h4⟩
  · exact ⟨h1, h2, h3, nodup_addUnique h4 _⟩
  · exact ⟨h1, h2, h3, h4⟩

theorem foldl_nodup (ths : List (List Char)) (init : Categorized)
    (h : init.ideas.Nodup ∧ init.questions.Nodup ∧ init.projects.Nodup ∧
      init.resources.Nodup) :
    (ths.foldl classifyStep init).ideas.Nodup ∧ (ths.foldl classifyStep init).questions.Nodup ∧
      (ths.foldl classifyStep init).projects.Nodup ∧
      (ths.foldl classifyStep init).resources.Nodup := by
  induction ths generalizing init with
  | nil => exact h
  | cons a as ih => exact ih _ (classifyStep_nodup a h)

/-- Claim C3 (amended): insertion is idempotent in the four keyword
categories — `ideas`, `questions`, `projects` and `resources` never hold
two equal entries — while the `random` fallback appends unconditionally
and may hold duplicates. -/
theorem keyword_categories_nodup (text : List Char) :
    (categorize_thoughts text).ideas.Nodup ∧ (categorize_thoughts text).questions.Nodup ∧
      (categorize_thoughts text).projects.Nodup ∧
      (categorize_thoughts text).resources.Nodup :=
  foldl_nodup _ _ ⟨List.nodup_nil, List.nodup_nil, List.nodup_nil, List.nodup_nil⟩

/-!
## Extraction lemmas (claims C4, C5, C9)
-/

theorem dropWhile_head_not_ws (l : List Char) :
    l.dropWhile isWS = [] ∨ ∃ c t, l.dropWhile isWS = c :: t ∧ isWS c = false := by
  induction l with
  | nil => left; rfl
  | cons c rest ih =>
    by_cases hc : isWS c = true
    · simpa [List.dropWhile_cons, hc] using ih
    · right
      exact ⟨c, rest, by simp [List.dropWhile_cons, hc], by simpa using hc⟩

theorem dropTrailWS_cases (c : Char) (t : List Char) :
    dropTrailWS (c :: t) = [] ∨ dropTrailWS (c :: t) = [c] ∨
      dropTrailWS (c :: t) = c :: dropTrailWS t := by
  cases h : dropTrailWS t with
  | nil =>
    by_cases hc : isWS c = true
    · left; simp [dropTrailWS, h, hc]
    · right; left; simp [dropTrailWS, h, hc]
  | cons r rs => right; right; simp [dropTrailWS, h]

theorem dropTrailWS_cons_eq (c : Char) (t : List Char) :
    dropTrailWS (c :: t) =
      match dropTrailWS t with
      | [] => if isWS c then [] else [c]
      | r :: rs => c :: r :: rs := rfl

theorem dropTrailWS_idem (l : List Char) : dropTrailWS (dropTrailWS l) = dropTrailWS l := by
  induction l with
  | nil => rfl
  | cons c rest ih =>
    cases h : dropTrailWS rest with
    | nil =>
      have h1 : dropTrailWS (c :: rest) = if isWS c then [] else [c] := by
        rw [dropTrailWS_cons_eq, h]
      by_cases hc : isWS c = true
      · rw [h1, if_pos hc]
        rfl
      · rw [h1, if_neg hc]
        simp [dropTrailWS, hc]
    | cons r rs =>
      have h1 : dropTrailWS (c :: rest) = c :: r :: rs := by
        rw [dropTrailWS_cons_eq, h]
      rw [h] at ih
      rw [h1, dropTrailWS_cons_eq, ih]

theorem mem_of_mem_dropTrailWS {x : Char} {l : List Char} (hx : x ∈ dropTrailWS l) :
    x ∈ l := by
  induction l with
  | nil => simp [dropTrailWS] at hx
  | cons c rest ih =>
    cases h : dropTrailWS rest with
    | nil =>
      simp only [dropTrailWS, h] at hx
      split_ifs at hx with hc
      · simp at hx
      · simp at hx
        simp [hx]
    | cons r rs =>
      simp only [dropTrailWS, h] at hx
      rcases List.mem_cons.1 hx with rfl | hx2
      · exact List.mem_cons_self _ _
      · exact List.mem_cons_of_mem _ (ih (by rw [h]; exact hx2))

theorem mem_of_mem_dropWhileWS {x : Char} {l : List Char} (hx : x ∈ l.dropWhile isWS) :
    x ∈ l := by
  induction l with
  | nil => simp at hx
  | cons c rest ih =>
    rw [List.dropWhile_cons] at hx
    by_cases hc : isWS c = true
    · rw [if_pos hc] at hx
      exact List.mem_cons_of_mem _ (ih hx)
    · rw [if_neg hc] at hx
      exact hx

theorem mem_of_mem_pyStrip {x : Char} {l : List Char} (hx : x ∈ pyStrip l) : x ∈ l :=
  mem_of_mem_dropWhileWS (mem_of_mem_dropTrailWS hx)

theorem dropWhile_dropTrailWS {c : Char} {t : List Char} (hc : isWS c = false) :
    (dropTrailWS (c :: t)).dropWhile isWS = dropTrailWS (c :: t) := by
  rcases dropTrailWS_cases c t with h | h | h <;> rw [h]
  · rfl
  · simp [List.dropWhile_cons, hc]
  · simp [List.dropWhile_cons, hc]

theorem pyStrip_idem (l : List Char) : pyStrip (pyStrip l) = pyStrip l := by
  unfold pyStrip
  rcases dropWhile_head_not_ws l with h | ⟨c, t, h, hc⟩
  · rw [h]
    rfl
  · rw [h, dropWhile_dropTrailWS hc]
    exact dropTrailWS_idem _

theorem pyStrip_tail_no_dot {c : Char} {t : List Char} (ht : ∀ x ∈ t, x ≠ '.') :
    ∀ x ∈ (pyStrip (c :: t)).tail, x ≠ '.' := by
  intro x hx
  unfold pyStrip at hx
  rw [List.dropWhile_cons] at hx
  by_cases hc : isWS c = true
  · rw [if_pos hc] at hx
    exact ht x (mem_of_mem_dropWhileWS
      (mem_of_mem_dropTrailWS (List.mem_of_mem_tail hx)))
  · rw [if_neg hc] at hx
    rcases dropTrailWS_cases c t with h | h | h <;> rw [h] at hx
    · simp at hx
    · simp at hx
    · exact ht x (mem_of_mem_dropTrailWS hx)

/-- Shape of every group-1 capture of the action patterns: non-empty,
its first character is not a newline, and no later character is a
period or a newline. -/
def CapShape (cap : List Char) : Prop :=
  ∃ c t, cap = c :: t ∧ c ≠ '\n' ∧ ∀ x ∈ t, x ≠ '.' ∧ x ≠ '\n'

theorem capLoop_fst (l : List Char) : ∀ acc : List Char,
    ∃ t, (capLoop acc l).1 = acc.reverse ++ t ∧ ∀ x ∈ t, x ≠ '.' ∧ x ≠ '\n' := by
  induction l with
  | nil => exact fun acc => ⟨[], by simp [capLoop], by simp⟩
  | cons c rest ih =>
    intro acc
    by_cases hc : (c == '.' || c == '\n') = true
    · exact ⟨[], by simp [capLoop, hc], by simp⟩
    · have hc2 : c ≠ '.' ∧ c ≠ '\n' := by simpa [not_or] using hc
      have hstep : capLoop acc (c :: rest) = capLoop (c :: acc) rest := by
        simp [capLoop, hc]
      obtain ⟨t, h1, h2⟩ := ih (c :: acc)
      refine ⟨c :: t, ?_, ?_⟩
      · rw [hstep, h1, List.reverse_cons, List.append_assoc]
        rfl
      · intro x hx
        rcases List.mem_cons.1 hx with rfl | hx2
        · exact hc2
        · exact h2 x hx2

theorem capLoop_snd_le (l : List Char) : ∀ acc, (capLoop acc l).2.length ≤ l.length := by
  induction l with
  | nil => intro acc; simp [capLoop]
  | cons c rest ih =>
    intro acc
    by_cases hc : (c == '.' || c == '\n') = true
    · simp [capLoop, hc]
    · have hstep : capLoop acc (c :: rest) = capLoop (c :: acc) rest := by
        simp [capLoop, hc]
      rw [hstep]
      exact le_trans (ih _) (Nat.le_succ _)

theorem tryCapture_some {s cap r : List Char} (h : tryCapture s = some (cap, r)) :
    CapShape cap ∧ r.length < s.length := by
  cases s with
  | nil => simp [tryCapture] at h
  | cons c rest =>
    by_cases hc : (c == '\n') = true
    · simp [tryCapture, hc] at h
    · simp only [tryCapture, hc, if_false] at h
      have h2 : capLoop [c] rest = (cap, r) := Option.some.inj h
      obtain ⟨t, h1, hdots⟩ := capLoop_fst rest [c]
      rw [h2] at h1
      constructor
      · exact ⟨c, t, by simpa using h1, by simpa using hc, hdots⟩
      · have := capLoop_snd_le rest [c]
        rw [h2] at this
        exact Nat.lt_succ_of_le this

theorem wsBacktrack_some : ∀ (j : Nat) (r cap r' : List Char),
    wsBacktrack j r = some (cap, r') → CapShape cap ∧ r'.length < r.length := by
  intro j
  induction j with
  | zero => exact fun r cap r' h => tryCapture_some h
  | succ j ih =>
    intro r cap r' h
    rw [wsBacktrack] at h
    cases htc : tryCapture (r.drop (j + 1)) with
    | some pr =>
      rw [htc] at h
      simp only [Option.orElse] at h
      rw [h] at htc
      obtain ⟨h1, h2⟩ := tryCapture_some htc
      refine ⟨h1, lt_of_lt_of_le h2 ?_⟩
      rw [List.length_drop]
      exact Nat.sub_le _ _
    | none =>
      rw [htc] at h
      simp only [Option.orElse] at h
      exact ih r cap r' h

theorem tryWS_some {r cap r' : List Char} (h : tryWS r = some (cap, r')) :
    CapShape cap ∧ r'.length < r.length :=
  wsBacktrack_some _ r cap r' h

theorem trySep_some {r cap r' : List Char} (h : trySep r = some (cap, r')) :
    CapShape cap ∧ r'.length < r.length := by
  cases r with
  | nil => exact tryWS_some h
  | cons c rest =>
    by_cases hc : (c == ',' || c == ':') = true
    · simp only [trySep, hc, if_true] at h
      cases hw : tryWS rest with
      | some pr =>
        rw [hw] at h
        simp only [Option.orElse] at h
        rw [h] at hw
        obtain ⟨h1, h2⟩ := tryWS_some hw
        exact ⟨h1, lt_trans h2 (Nat.lt_succ_self _)⟩
      | none =>
        rw [hw] at h
        simp only [Option.orElse] at h
        exact tryWS_some h
    · simp only [trySep, hc, if_false] at h
      exact tryWS_some h

theorem kwMatch_some {kw s r : List Char} (h : kwMatch kw s = some r) :
    r.length ≤ s.length := by
  unfold kwMatch at h
  split_ifs at h
  · rw [← Option.some.inj h, List.length_drop]
    exact Nat.sub_le _ _

theorem tryAlt_some : ∀ (kws : List (List Char)) (s cap after : List Char),
    tryAlt kws s = some (cap, after) → CapShape cap ∧ after.length < s.length := by
  intro kws
  induction kws with
  | nil => intro s cap after h; simp [tryAlt] at h
  | cons kw kws ih =>
    intro s cap after h
    simp only [tryAlt] at h
    cases hk : kwMatch kw s with
    | none =>
      simp only [hk] at h
      exact ih s cap after h
    | some r =>
      simp only [hk] at h
      cases hs : trySep r with
      | none =>
        simp only [hs] at h
        exact ih s cap after h
      | some res =>
        simp only [hs] at h
        rw [Option.some.inj h] at hs
        obtain ⟨h1, h2⟩ := trySep_some hs
        exact ⟨h1, lt_of_lt_of_le h2 (kwMatch_some hk)⟩

theorem findAllF_mem : ∀ (fuel : Nat) (kws : List (List Char)) (s cap : List Char),
    cap ∈ findAllF fuel kws s → CapShape cap := by
  intro fuel
  induction fuel with
  | zero => intro kws s cap h; simp [findAllF] at h
  | succ f ih =>
    intro kws s cap h
    cases s with
    | nil => simp [findAllF] at h
    | cons c rest =>
      simp only [findAllF] at h
      cases ha : tryAlt kws (c :: rest) with
      | none =>
        simp only [ha] at h
        exact ih kws rest cap h
      | some pr =>
        cases pr with
        | mk cp after =>
          simp only [ha] at h
          rcases List.mem_cons.1 h with rfl | h2
          · exact (tryAlt_some kws _ _ _ ha).1
          · exact ih kws after cap h2

/-- Every pattern match consumes at least one character, so any fuel
above the text length computes the same scan: the `length + 1` budget
of `findAll` is exactly the unbounded `re.findall` loop. -/
theorem findAllF_fuel_irrel : ∀ (fuel1 fuel2 : Nat) (kws : List (List Char)) (s : List Char),
    s.length < fuel1 → s.length < fuel2 → findAllF fuel1 kws s = findAllF fuel2 kws s := by
  intro fuel1
  induction fuel1 with
  | zero => intro fuel2 kws s h1 h2; exact absurd h1 (Nat.not_lt_zero _)
  | succ f ih =>
    intro fuel2 kws s h1 h2
    cases fuel2 with
    | zero => exact absurd h2 (Nat.not_lt_zero _)
    | succ f2 =>
      cases s with
      | nil => simp [findAllF]
      | cons c rest =>
        simp only [findAllF]
        cases ha : tryAlt kws (c :: rest) with
        | none =>
          simp only [ha]
          have hr1 : rest.length < f := by
            simp only [List.length_cons] at h1
            omega
          have hr2 : rest.length < f2 := by
            simp only [List.length_cons] at h2
            omega
          exact ih f2 kws rest hr1 hr2
        | some pr =>
          cases pr with
          | mk cp after =>
            simp only [ha]
            have hlt := (tryAlt_some kws _ _ _ ha).2
            simp only [List.length_cons] at h1 h2 hlt
            rw [ih f2 kws after (by omega) (by omega)]

theorem processMatches_eq (ms : List (List Char)) :
    processMatches ms = (ms.map pyStrip).filter (fun m => decide (3 < m.length)) := by
  induction ms with
  | nil => rfl
  | cons a as ih =>
    unfold processMatches at ih ⊢
    simp only [List.filter_cons, List.map_cons]
    by_cases ha : 3 < (pyStrip a).length
    · simp [ha, ih]
    · simp [ha, ih]

theorem mem_processMatches {ms : List (List Char)} {m : List Char}
    (h : m ∈ processMatches ms) : ∃ cap ∈ ms, m = pyStrip cap ∧ 3 < m.length := by
  unfold processMatches at h
  rcases List.mem_map.1 h with ⟨cap, hcap, rfl⟩
  rcases List.mem_filter.1 hcap with ⟨hmem, hlen⟩
  exact ⟨cap, hmem, rfl, by simpa using hlen⟩

/-- Claim C4: on "I need to call Bob. I should email Alice." the
extractor returns exactly ["call Bob", "email Alice"], in that order,
and pattern B contributes nothing. -/
theorem action_items_example :
    extract_action_items (str "I need to call Bob. I should email Alice.")
        = [str "call Bob", str "email Alice"] ∧
      findAll patternB (str "I need to call Bob. I should email Alice.") = [] := by
  decide

/-- Claim C5: the result is pattern A's processed matches followed by
pattern B's (scan order within each pattern is the left-to-right order
of `findAll`); every item is trimmed and longer than 3 characters; and
nothing is deduplicated — two patterns capturing the same text emit it
twice. -/
theorem action_items_order_and_shape (text : List Char) :
    extract_action_items text
        = ((findAll patternA text).map pyStrip).filter (fun m => decide (3 < m.length))
          ++ ((findAll patternB text).map pyStrip).filter (fun m => decide (3 < m.length))
      ∧ (∀ m ∈ extract_action_items text, pyStrip m = m ∧ 3 < m.length)
      ∧ extract_action_items (str "need to ship it. next step: ship it.")
          = [str "ship it", str "ship it"] := by
  refine ⟨?_, ?_, by decide⟩
  · unfold extract_action_items
    rw [processMatches_eq, processMatches_eq]
  · intro m hm
    unfold extract_action_items at hm
    rcases List.mem_append.1 hm with h | h
    · rcases mem_processMatches h with ⟨cap, _, rfl, hlen⟩
      exact ⟨pyStrip_idem cap, hlen⟩
    · rcases mem_processMatches h with ⟨cap, _, rfl, hlen⟩
      exact ⟨pyStrip_idem cap, hlen⟩

/-- Claim C9 counterexample: the non-greedy capture may start with a
period, so "todo .abc" yields the action item ".abc", which contains a
period. -/
theorem action_item_with_period_cex :
    extract_action_items (str "todo .abc") = [str ".abc"] ∧ '.' ∈ str ".abc" := by
  decide

/-- Claim C9 (amended): every returned action item contains no newline
anywhere, and no period except possibly as its first character — the
capture is terminated at the first period, newline or end of text only
after its first character has been consumed. -/
theorem action_items_char_shape (text m : List Char)
    (h : m ∈ extract_action_items text) :
    '\n' ∉ m ∧ ∀ x ∈ m.tail, x ≠ '.' := by
  unfold extract_action_items at h
  have hshape : ∃ cap, CapShape cap ∧ m = pyStrip cap := by
    rcases List.mem_append.1 h with h1 | h1
    · rcases mem_processMatches h1 with ⟨cap, hcap, rfl, _⟩
      exact ⟨cap, findAllF_mem _ _ _ _ hcap, rfl⟩
    · rcases mem_processMatches h1 with ⟨cap, hcap, rfl, _⟩
      exact ⟨cap, findAllF_mem _ _ _ _ hcap, rfl⟩
  obtain ⟨cap, ⟨c, t, rfl, hcn, hct⟩, rfl⟩ := hshape
  constructor
  · intro hx
    rcases List.mem_cons.1 (mem_of_mem_pyStrip hx) with h2 | h2
    · exact hcn h2.symm
    · exact (hct _ h2).2 rfl
  · exact pyStrip_tail_no_dot (fun x hx => (hct x hx).1)

/-- Witness for amended C9 at a concrete extraction. -/
theorem action_items_char_shape_witness :
    '\n' ∉ str "call Bob" ∧ ∀ x ∈ (str "call Bob").tail, x ≠ '.' :=
  action_items_char_shape (str "I need to call Bob.") (str "call Bob") (by decide)

/-!
## Rendering lemmas (claims C6, C7, C8, C10)
-/

theorem splitNl_shape (l : List Char) : ∃ p ps, splitNl l = p :: ps := by
  induction l with
  | nil => exact ⟨[], [], rfl⟩
  | cons c rest ih =>
    obtain ⟨p, ps, h⟩ := ih
    by_cases hc : (c == '\n') = true
    · exact ⟨[], splitNl rest, by simp [splitNl, hc]⟩
    · exact ⟨c :: p, ps, by simp [splitNl, hc, h]⟩

theorem splitNl_no_nl {l : List Char} (h : '\n' ∉ l) : splitNl l = [l] := by
  induction l with
  | nil => rfl
  | cons c rest ih =>
    rw [List.mem_cons, not_or] at h
    obtain ⟨h1, h2⟩ := h
    have hc : (c == '\n') = false := by
      simp only [beq_eq_false_iff_ne]
      exact fun he => h1 he.symm
    simp [splitNl, hc, ih h2]

theorem splitNl_append_newline (a b : List Char) :
    splitNl (a ++ '\n' :: b) = splitNl a ++ splitNl b := by
  induction a with
  | nil => simp [splitNl]
  | cons c a ih =>
    by_cases hc : (c == '\n') = true
    · simp [splitNl, hc, ih]
    · obtain ⟨p, ps, hp⟩ := splitNl_shape a
      have hp2 : splitNl (a ++ '\n' :: b) = p :: (ps ++ splitNl b) := by
        rw [ih, hp]
        rfl
      simp [splitNl, hc, hp, hp2]

theorem splitNl_joinNl (ls : List (List Char)) (h : ls ≠ []) :
    splitNl (joinNl ls) = (ls.map splitNl).flatten := by
  induction ls with
  | nil => exact absurd rfl h
  | cons l ls ih =>
    cases ls with
    | nil => simp [joinNl]
    | cons l2 ls2 =>
      have hj : joinNl (l :: l2 :: ls2) = l ++ '\n' :: joinNl (l2 :: ls2) := rfl
      rw [hj, splitNl_append_newline, ih (by simp)]
      simp

theorem joinNl_splitNl (s : List Char) : joinNl (splitNl s) = s := by
  induction s with
  | nil => rfl
  | cons c rest ih =>
    obtain ⟨p, ps, hp⟩ := splitNl_shape rest
    by_cases hc : (c == '\n') = true
    · have hceq : c = '\n' := by simpa using hc
      have hs : splitNl (c :: rest) = [] :: p :: ps := by
        simp [splitNl, hc, hp]
      rw [hs, hceq]
      have : joinNl ([] :: p :: ps) = '\n' :: joinNl (p :: ps) := rfl
      rw [this, ← hp, ih]
    · have hs : splitNl (c :: rest) = (c :: p) :: ps := by
        simp [splitNl, hc, hp]
      rw [hs]
      cases ps with
      | nil =>
        have hrest : p = rest := by
          rw [hp] at ih
          exact ih
        simp [joinNl, hrest]
      | cons q qs =>
        have h2 : joinNl (p :: q :: qs) = rest := by
          rw [← hp]
          exact ih
        have h3 : joinNl ((c :: p) :: q :: qs) = c :: joinNl (p :: q :: qs) := rfl
        rw [h3, h2]

theorem takeWhile_all_stop {α : Type} (p : α → Bool) :
    ∀ (xs : List α) (y : α) (zs : List α), (∀ x ∈ xs, p x = true) → p y = false →
      (xs ++ y :: zs).takeWhile p = xs := by
  intro xs
  induction xs with
  | nil =>
    intro y zs h hy
    simp [List.takeWhile_cons, hy]
  | cons a as ih =>
    intro y zs h hy
    have ha : p a = true := h a (List.mem_cons_self _ _)
    simp only [List.cons_append, List.takeWhile_cons, ha, if_true]
    rw [ih y zs (fun x hx => h x (List.mem_cons_of_mem _ hx)) hy]

theorem dropWhile_all_stop {α : Type} (p : α → Bool) :
    ∀ (xs : List α) (y : α) (zs : List α), (∀ x ∈ xs, p x = true) → p y = false →
      (xs ++ y :: zs).dropWhile p = y :: zs := by
  intro xs
  induction xs with
  | nil =>
    intro y zs h hy
    simp [List.dropWhile_cons, hy]
  | cons a as ih =>
    intro y zs h hy
    have ha : p a = true := h a (List.mem_cons_self _ _)
    simp only [List.cons_append, List.dropWhile_cons, ha, if_true]
    exact ih y zs (fun x hx => h x (List.mem_cons_of_mem _ hx)) hy

theorem getLastD_append_singleton {α : Type} (l : List α) (a : α) :
    ∀ d, (l ++ [a]).getLastD d = a := by
  induction l with
  | nil => intro d; rfl
  | cons b bs ih =>
    intro d
    rw [List.cons_append, List.getLastD_cons]
    exact ih b

/-- The enumeration order of `CATEGORIES` (brain_dump.py line 15). -/
def allCats : List Cat := [.ideas, .questions, .projects, .resources, .random]

/-- The title-cased category names as the spec's section 4.4 lists them. -/
def specCatTitle : Cat → List Char
  | .ideas => str "Ideas"
  | .questions => str "Questions"
  | .projects => str "Projects"
  | .resources => str "Resources"
  | .random => str "Random"

/-- The Categorized section as the spec describes it: one subsection per
category in the fixed enumeration order, title-cased, emitted only when
non-empty, each item a Markdown bullet followed by a blank line. -/
def specCatSection (m : Categorized) : List (List Char) :=
  (allCats.map (fun c =>
    if m.get c = [] then []
    else (str "### " ++ specCatTitle c) :: ((m.get c).map (fun i => str "- " ++ i) ++ [[]]))).flatten

/-- Claim C6: the rendered report's Categorized subsections come in the
fixed order ideas, questions, projects, resources, random, title-cased,
skipping exactly the empty categories, one bullet per item. -/
theorem dump_entry_category_section (ts text : List Char) (m : Categorized)
    (actions : List (List Char)) :
    dumpLines ts text m actions
      = headerLines ts text ++ specCatSection m ++ actionLines actions ++ footerLines ts := by
  rfl

theorem notFence_true {l : List Char} (h : l ≠ fence) : (!(l == fence)) = true := by
  simp [h]

theorem title_ne_fence (ts : List Char) : str "# Brain Dump: " ++ ts ≠ fence := by
  intro h
  have h0 : (str "# Brain Dump: " ++ ts).headD ' ' = fence.headD ' ' := by rw [h]
  have h1 : (str "# Brain Dump: " ++ ts).headD ' ' = '#' := rfl
  have h2 : fence.headD ' ' = '`' := rfl
  rw [h1, h2] at h0
  exact absurd h0 (by decide)

/-- The line list of a report, with the first seven lines explicit. -/
theorem dumpLines_eq (ts text : List Char) (m : Categorized) (actions : List (List Char)) :
    dumpLines ts text m actions
      = [str "# Brain Dump: " ++ ts, [], str "## 📝 Raw Thoughts", [], fence, text, fence]
          ++ ([[], str "## 🏷️ Categorized", []] ++ (m.items.map catBlock).flatten
              ++ actionLines actions ++ footerLines ts) := by
  simp [dumpLines, headerLines]

/-- The rendered report splits back into: four preamble lines, the
opening fence, the lines of the raw text, the closing fence, and the
remaining lines. -/
theorem splitNl_report (ts text : List Char) (m : Categorized)
    (actions : List (List Char)) (hts : '\n' ∉ ts) :
    splitNl (generate_dump_entry ts text m actions)
      = [str "# Brain Dump: " ++ ts, [], str "## 📝 Raw Thoughts", []]
          ++ fence :: (splitNl text
            ++ fence :: (([[], str "## 🏷️ Categorized", []]
                ++ (m.items.map catBlock).flatten ++ actionLines actions
                ++ footerLines ts).map splitNl).flatten) := by
  have htitle : '\n' ∉ str "# Brain Dump: " ++ ts := by
    intro hx
    rcases List.mem_append.1 hx with h | h
    · revert h
      decide
    · exact hts h
  unfold generate_dump_entry
  rw [dumpLines_eq]
  rw [splitNl_joinNl _ (by simp)]
  simp only [List.map_append, List.map_cons, List.flatten_append, List.flatten_cons]
  rw [splitNl_no_nl htitle]
  rw [splitNl_no_nl (l := []) (by simp)]
  rw [splitNl_no_nl (l := str "## 📝 Raw Thoughts") (by decide)]
  rw [splitNl_no_nl (l := fence) (by decide)]
  simp

/-- Claim C7: as long as no line of the input text is a fence line, the
text between the opening and closing fences of the rendered report is
byte-for-byte the original input. -/
theorem raw_block_roundtrip (ts text : List Char) (m : Categorized)
    (actions : List (List Char)) (hts : '\n' ∉ ts)
    (htext : ∀ l ∈ splitNl text, l ≠ fence) :
    rawBlock (generate_dump_entry ts text m actions) = text := by
  unfold rawBlock
  rw [splitNl_report ts text m actions hts]
  have hpre : ∀ x ∈ [str "# Brain Dump: " ++ ts, ([] : List Char),
      str "## 📝 Raw Thoughts", ([] : List Char)], (!(x == fence)) = true := by
    intro x hx
    rcases List.mem_cons.1 hx with rfl | hx
    · exact notFence_true (title_ne_fence ts)
    · rcases List.mem_cons.1 hx with rfl | hx
      · decide
      · rcases List.mem_cons.1 hx with rfl | hx
        · decide
        · rcases List.mem_cons.1 hx with rfl | hx
          · decide
          · simp at hx
  rw [dropWhile_all_stop _ _ _ _ hpre (by simp)]
  rw [List.drop_one, List.tail_cons]
  rw [takeWhile_all_stop _ _ _ _ (fun x hx => notFence_true (htext x hx)) (by simp)]
  exact joinNl_splitNl text

/-- Witness for C7: a two-line input survives the round trip. -/
theorem raw_block_roundtrip_witness :
    rawBlock (generate_dump_entry (str "2025-01-02 03:04") (str "alpha\nbeta")
        emptyCat []) = str "alpha\nbeta" :=
  raw_block_roundtrip (str "2025-01-02 03:04") (str "alpha\nbeta") emptyCat []
    (by decide) (by decide)

/-- Claim C8: when the input strips to nothing, `main` stops before any
categorization, extraction or write: no file is produced. -/
theorem main_empty_input_no_write (ts tsFile text : List Char)
    (h : pyStrip text = []) : mainModel ts tsFile text = none := by
  simp [mainModel, h]

/-- Witness for C8 on a whitespace-only input. -/
theorem main_empty_input_no_write_witness :
    mainModel (str "2025-01-02 03:04") (str "2025-01-02-0304") (str "  \n\t ") = none :=
  main_empty_input_no_write _ _ _ (by decide)

/-- Claim C10: the title-line timestamp and the Processed-footer
timestamp of one report are the same string — both render the single
`datetime.now()` value captured at the start of `generate_dump_entry`. -/
theorem timestamps_agree (ts text : List Char) (m : Categorized)
    (actions : List (List Char)) (hts : '\n' ∉ ts) :
    titleTs (generate_dump_entry ts text m actions)
        = footerTs (generate_dump_entry ts text m actions) ∧
      titleTs (generate_dump_entry ts text m actions) = ts := by
  have hfoot : '\n' ∉ str "*Processed: " ++ ts ++ str "*" := by
    intro hx
    rcases List.mem_append.1 hx with h | h
    · rcases List.mem_append.1 h with h2 | h2
      · revert h2
        decide
      · exact hts h2
    · revert h
      decide
  have htitle : titleTs (generate_dump_entry ts text m actions) = ts := by
    unfold titleTs
    rw [splitNl_report ts text m actions hts]
    show (str "# Brain Dump: " ++ ts).drop (str "# Brain Dump: ").length = ts
    exact List.drop_left _ _
  have hlines : dumpLines ts text m actions
      = (headerLines ts text ++ (m.items.map catBlock).flatten ++ actionLines actions
          ++ [str "---", []]) ++ [str "*Processed: " ++ ts ++ str "*"] := by
    simp [dumpLines, footerLines]
  have hfootTs : footerTs (generate_dump_entry ts text m actions) = ts := by
    unfold footerTs generate_dump_entry
    rw [hlines, splitNl_joinNl _ (by simp), List.map_append, List.flatten_append]
    rw [List.map_singleton, splitNl_no_nl hfoot]
    have hfl : ([[str "*Processed: " ++ ts ++ str "*"]] : List (List (List Char))).flatten
        = [str "*Processed: " ++ ts ++ str "*"] := by simp
    rw [hfl, getLastD_append_singleton]
    show ((str "*Processed: " ++ ts ++ str "*").drop (str "*Processed: ").length).dropLast = ts
    rw [List.append_assoc, List.drop_left]
    exact List.dropLast_concat
  exact ⟨htitle.trans hfootTs.symm, htitle⟩

/-- Witness for C10 at a concrete timestamp. -/
theorem timestamps_agree_witness :
    titleTs (generate_dump_entry (str "2025-01-02 03:04") (str "hi") emptyCat [])
        = footerTs (generate_dump_entry (str "2025-01-02 03:04") (str "hi") emptyCat []) ∧
      titleTs (generate_dump_entry (str "2025-01-02 03:04") (str "hi") emptyCat [])
        = str "2025-01-02 03:04" :=
  timestamps_agree (str "2025-01-02 03:04") (str "hi") emptyCat [] (by decide)

end BrainDump
